import Mathlib

/-!
Verification development for `repoStruct2Markdown.py`, a tool that walks a
directory tree and emits a markdown document: a tree listing followed by each
recognized file's numbered contents.

The Python source is shallowly embedded below.  Filesystem state is explicit:
a directory whose children cannot be listed (PermissionError on `iterdir`)
carries `none` children; a file whose `read_text` raises carries an
`Except.error` with the exception's message.  Unicode-only divergences of
`str.lower`/`str.rstrip` (both are used on ASCII-ish data here) are modelled
with their ASCII behaviour.
-/

namespace RepoMd

/-! ### Python string primitives

Modelled over `List Char` so that every definition evaluates by kernel
reduction (Lean's built-in `String` operations go through byte iterators). -/

/-- `str.lower`, ASCII fragment (all data lowered here is ASCII): code points
65–90 (`A`–`Z`) shift by 32, everything else is unchanged. -/
def pyToLower (c : Char) : Char :=
  if 65 ≤ c.toNat && c.toNat ≤ 90 then Char.ofNat (c.toNat + 32) else c

/-- `str.lower` on a whole string. -/
def pyLower (s : String) : String := String.mk (s.toList.map pyToLower)

/-- `re.match(r'^\..*', name)` succeeds iff `name` starts with a dot. -/
def startsWithDot (name : String) : Bool :=
  match name.toList with
  | c :: _ => c == '.'
  | [] => false

/-- Split on a separator character; `str.split(sep)` semantics
(`"" ↦ [""]`, separators at the ends produce empty pieces). -/
def splitCharAux (sep : Char) : List Char → List Char → List (List Char)
  | [], cur => [cur.reverse]
  | c :: rest, cur =>
    if c = sep then cur.reverse :: splitCharAux sep rest []
    else splitCharAux sep rest (c :: cur)

/-- `s.split(sep)` for a one-character separator. -/
def pySplit (sep : Char) (s : String) : List String :=
  (splitCharAux sep s.toList []).map String.mk

/-! ### fnmatch.fnmatchcase

`pathlib.PurePath.match` matches each path component with
`fnmatch.fnmatchcase`.  `*` matches any run, `?` one character, `[...]` a
character class (leading `!` negates, a leading `]` is literal, an
unterminated `[` is a literal `[`; ranges `a-b` compare by code point). -/

/-- Does `c` belong to the character-class body `body` (ranges and literals)? -/
def matchClassChar : List Char → Char → Bool
  | a :: '-' :: b :: rest, c => (a ≤ c && c ≤ b) || matchClassChar rest c
  | a :: rest, c => (a == c) || matchClassChar rest c
  | [], _ => false

/-- Scan to the first `]`, returning the chars before it and the remainder. -/
def findClose : List Char → Option (List Char × List Char)
  | [] => none
  | c :: rest =>
    if c = ']' then some ([], rest)
    else (findClose rest).map (fun p => (c :: p.1, p.2))

/-- Split a class body off, treating a leading `]` as literal. -/
def splitClassBody (ps : List Char) : Option (List Char × List Char) :=
  match ps with
  | ']' :: t => (findClose t).map (fun p => (']' :: p.1, p.2))
  | _ => findClose ps

/-- Split a (possibly negated) class body off the pattern after a `[`. -/
def splitClass (ps : List Char) : Option (Bool × List Char × List Char) :=
  match ps with
  | '!' :: t => (splitClassBody t).map (fun p => (true, p.1, p.2))
  | _ => (splitClassBody ps).map (fun p => (false, p.1, p.2))

theorem findClose_length : ∀ {l : List Char} {b r : List Char},
    findClose l = some (b, r) → b.length + r.length < l.length := by
  intro l
  induction l with
  | nil => intro b r h; simp [findClose] at h
  | cons c t ih =>
    intro b r h
    simp only [findClose] at h
    split at h
    · obtain ⟨hb, hr⟩ := Prod.mk.injEq .. ▸ (Option.some.injEq .. ▸ h)
      subst hb; subst hr
      simp
    · simp only [Option.map_eq_some'] at h
      obtain ⟨⟨b', r'⟩, hfc, hpr⟩ := h
      have := ih hfc
      cases hpr
      simp only [List.length_cons]
      omega

theorem splitClassBody_length {ps b r : List Char}
    (h : splitClassBody ps = some (b, r)) : r.length < ps.length := by
  unfold splitClassBody at h
  split at h
  · simp only [Option.map_eq_some'] at h
    obtain ⟨⟨b', r'⟩, hfc, hpr⟩ := h
    have := findClose_length hfc
    cases hpr
    simp only [List.length_cons]
    omega
  · have := findClose_length h
    omega

theorem splitClass_length {ps : List Char} {neg : Bool} {b r : List Char}
    (h : splitClass ps = some (neg, b, r)) : r.length < ps.length := by
  unfold splitClass at h
  split at h
  · simp only [Option.map_eq_some'] at h
    obtain ⟨⟨b', r'⟩, hsb, hpr⟩ := h
    have := splitClassBody_length hsb
    cases hpr
    simp only [List.length_cons]
    omega
  · simp only [Option.map_eq_some'] at h
    obtain ⟨⟨b', r'⟩, hsb, hpr⟩ := h
    have := splitClassBody_length hsb
    cases hpr
    exact this

/-- `globMatch pat s`: shell-glob match of pattern `pat` against string `s`,
following `fnmatch.fnmatchcase` (case-sensitive, the POSIX flavour). -/
def globMatch : List Char → List Char → Bool
  | [], s => s.isEmpty
  | '*' :: ps, s =>
    globMatch ps s ||
      (match s with
       | [] => false
       | _ :: s' => globMatch ('*' :: ps) s')
  | '?' :: ps, s =>
    (match s with
     | [] => false
     | _ :: s' => globMatch ps s')
  | '[' :: ps, s =>
    (match h : splitClass ps with
     | some (neg, body, rest) =>
       (match s with
        | [] => false
        | c :: s' => (neg != matchClassChar body c) && globMatch rest s')
     | none =>
       (match s with
        | [] => false
        | c :: s' => ('[' == c) && globMatch ps s'))
  | p :: ps, s =>
    (match s with
     | [] => false
     | c :: s' => (p == c) && globMatch ps s')
termination_by ps s => (ps.length, s.length)
decreasing_by
  · apply Prod.Lex.left; simp
  · apply Prod.Lex.right; simp
  · apply Prod.Lex.left; simp
  · apply Prod.Lex.left
    have := splitClass_length h
    simp only [List.length_cons]
    omega
  · apply Prod.Lex.left; simp
  · apply Prod.Lex.left; simp

/-- `fnmatch.fnmatchcase(name, pat)`. -/
def fnmatchcase (name pat : String) : Bool := globMatch pat.toList name.toList

/-! ### pathlib.PurePath.match

`item.match(pattern)` (POSIX flavour): split the pattern on `/` (dropping
empty and `.` components); a relative pattern must glob-match the trailing
components of the path, an absolute pattern the whole path. -/

/-- Pattern components, as `pathlib.parse_parts` produces them: split on `/`,
dropping empty and `.` components. -/
def patParts (pattern : String) : List String :=
  (pySplit '/' pattern).filter (fun c => !(c == "" || c == "."))

/-- Componentwise fnmatch of equally long component lists. -/
def matchParts : List String → List String → Bool
  | [], [] => true
  | p :: ps, c :: cs => fnmatchcase c p && matchParts ps cs
  | _, _ => false

/-- `PurePosixPath(comps).match(pattern)`.  `comps` are the path's parts as
pathlib stores them: for an absolute path the first component is the root
marker `"/"`, mirroring `PurePosixPath('/a').parts = ('/', 'a')`.  Following
`PurePath.match`: an absolute pattern (leading `/`) must match the whole
path, root included, and never matches a relative path; a relative pattern
glob-matches the trailing parts, which may reach the root marker (`fnmatch`
lets `*` and `?` match `"/"`).  An empty pattern raises in Python; it is
unreachable from `_should_ignore`, which only calls `match` on patterns
containing `*`. -/
def pathMatch (comps : List String) (pattern : String) : Bool :=
  let patRoot := pattern.toList.head? == some '/'
  let patsTail := patParts pattern
  let pats := if patRoot then "/" :: patsTail else patsTail
  if pats.isEmpty then false
  else if patRoot && !(comps.head? == some "/") then false
  else if patRoot then
    (pats.length == comps.length) && matchParts patsTail (comps.drop 1)
  else
    decide (pats.length ≤ comps.length) &&
      matchParts pats (comps.drop (comps.length - pats.length))

/-- `PurePosixPath('myrepo/a/b.py').match('/myrepo/a/*.py')` is `False`: an
absolute pattern never matches a relative path. -/
theorem pathMatch_abs_pattern_rel_path :
    pathMatch ["myrepo", "a", "b.py"] "/myrepo/a/*.py" = false := by
  decide

/-- `PurePosixPath('/b.py').match('*/b.py')` is `True`: a relative pattern's
trailing-part match may reach the root marker, which `*` matches. -/
theorem pathMatch_star_matches_root :
    pathMatch ["/", "b.py"] "*/b.py" = true := by
  simp [pathMatch, patParts, pySplit, splitCharAux, matchParts, fnmatchcase,
    globMatch]

/-! ### pathlib.PurePath.suffix -/

/-- Index of the last occurrence of `c`, if any (`str.rfind`). -/
def lastIdxOf (c : Char) : List Char → Option Nat
  | [] => none
  | a :: rest =>
    match lastIdxOf c rest with
    | some i => some (i + 1)
    | none => if a == c then some 0 else none

/-- `PurePath(name).suffix`: `name[i:]` for `i = name.rfind('.')` when
`0 < i < len(name) - 1`, else the empty string. -/
def pySuffix (name : String) : String :=
  let cs := name.toList
  match lastIdxOf '.' cs with
  | none => ""
  | some i => if 0 < i && i + 1 < cs.length then String.mk (cs.drop i) else ""

/-! ### determine_file_language -/

/-- The fixed extension-to-language table of `determine_file_language`. -/
def extension_map : List (String × String) :=
  [(".cpp", "cpp"), (".c", "c"), (".h", "cpp"), (".hpp", "cpp"),
   (".py", "python"), (".js", "javascript"), (".html", "html"),
   (".css", "css"), (".java", "java"), (".md", "markdown"),
   (".json", "json"), (".xml", "xml"), (".sql", "sql"), (".sh", "bash"),
   (".bat", "batch"), (".ps1", "powershell"), (".cs", "csharp"),
   (".rb", "ruby"), (".php", "php"), (".pl", "perl"), (".go", "go"),
   (".rs", "rust"), (".idl", "idl"), (".yaml", "yaml")]

/-- `determine_file_language(file_path)`; depends only on the file's final
component `name` via `file_path.suffix.lower()`. -/
def determine_file_language (name : String) : Option String :=
  extension_map.lookup (pyLower (pySuffix name))

/-! ### create_anchor_id -/

/-- One step of `re.sub(r'[^a-zA-Z0-9]', '-', ·)`: the classes `a`–`z`,
`A`–`Z`, `0`–`9` by code point. -/
def dashNonAlnum (c : Char) : Char :=
  if (97 ≤ c.toNat && c.toNat ≤ 122) || (65 ≤ c.toNat && c.toNat ≤ 90) ||
      (48 ≤ c.toNat && c.toNat ≤ 57) then c
  else '-'

/-- `re.sub(r'-+', '-', ·)`: collapse each run of dashes to one dash. -/
def collapseDashes : List Char → List Char
  | '-' :: '-' :: rest => collapseDashes ('-' :: rest)
  | c :: rest => c :: collapseDashes rest
  | [] => []
termination_by l => l.length

/-- `str.strip('-')`. -/
def stripDashes (cs : List Char) : List Char :=
  ((cs.dropWhile (· == '-')).reverse.dropWhile (· == '-')).reverse

/-- `create_anchor_id(filename)`: lowercase, dash out non-alphanumerics,
collapse dash runs, strip outer dashes. -/
def create_anchor_id (filename : String) : String :=
  String.mk (stripDashes (collapseDashes ((pyLower filename).toList.map dashNonAlnum)))

/-! ### The filesystem model -/

/-- A directory entry.  `dir _ none` is a directory whose `iterdir` raises
`PermissionError`; `file _ (.error e)` is a file whose `read_text` raises an
exception rendering as `e`. -/
inductive FS where
  | file (name : String) (content : Except String String)
  | dir (name : String) (children : Option (List FS))

/-- `item.name`. -/
def FS.name : FS → String
  | .file n _ => n
  | .dir n _ => n

/-- `item.is_dir()`. -/
def FS.is_dir : FS → Bool
  | .dir _ _ => true
  | .file _ _ => false

/-- `item.is_file()`. -/
def FS.is_file : FS → Bool
  | .dir _ _ => false
  | .file _ _ => true

/-- The keyword configuration of `generate_repo_structure_to_markdown`. -/
structure Config where
  ignore_patterns : Option (List String)
  ignore_hidden : Bool
  include_file_contents : Bool

/-- `_should_ignore(item)`.  `itemComps` are the parts of `item`'s path as
pathlib stores them: the root path's parts (whose first component is the
root marker `"/"` when the root path is absolute) followed by the relative
components; `item.name` is its last component.  The hidden check is
`re.match(r'^\..*', name)`, i.e. `name` starts with a dot. -/
def _should_ignore (cfg : Config) (itemComps : List String) : Bool :=
  let name := itemComps.getLast?.getD ""
  if cfg.ignore_hidden && startsWithDot name then true
  else
    match cfg.ignore_patterns with
    | none => false
    | some pats =>
      pats.any (fun pat =>
        pat == name || (pat.toList.contains '*' && pathMatch itemComps pat))

/-! ### Sorting

`sorted(items, key=lambda x: x.name.lower())` is a stable sort comparing the
lowercased names; we embed it as insertion sort, which is stable and agrees
with any stable sort for this total preorder.  `str.lower` is modelled by
`String.toLower` (ASCII). -/

/-- The comparison used by `_build_tree`'s `sorted` calls. -/
def fsLe (x y : FS) : Prop := pyLower x.name ≤ pyLower y.name

instance : DecidableRel fsLe := fun x y =>
  inferInstanceAs (Decidable (pyLower x.name ≤ pyLower y.name))

instance : IsTotal FS fsLe := ⟨fun x y => le_total (pyLower x.name) (pyLower y.name)⟩

instance : IsTrans FS fsLe := ⟨fun _ _ _ h h' => le_trans h h'⟩

/-- `sorted(·, key=lambda x: x.name.lower())`. -/
def sortedByName (l : List FS) : List FS := l.insertionSort fsLe

theorem sizeOf_list_perm_eq {l₁ l₂ : List FS} (h : l₁.Perm l₂) :
    sizeOf l₁ = sizeOf l₂ := by
  induction h with
  | nil => rfl
  | cons x _ ih => simp only [List.cons.sizeOf_spec]; omega
  | swap x y l => simp only [List.cons.sizeOf_spec]; omega
  | trans _ _ ih₁ ih₂ => omega

theorem sizeOf_filter_le (p : FS → Bool) :
    ∀ l : List FS, sizeOf (l.filter p) ≤ sizeOf l := by
  intro l
  induction l with
  | nil => simp
  | cons a t ih =>
    rw [List.filter_cons]
    split
    · simp only [List.cons.sizeOf_spec]; omega
    · simp only [List.cons.sizeOf_spec]; omega

theorem sizeOf_sortedByName (l : List FS) : sizeOf (sortedByName l) = sizeOf l :=
  sizeOf_list_perm_eq (List.perm_insertionSort fsLe l)

/-! ### The traversal state

`result` is the accumulated list of output lines; `file_contents` is the
insertion-ordered dict keyed by `str(rel_path) + "//" + item.name`, holding
`(anchor_id, item, str(rel_path))`. -/

/-- A content record: `(anchor_id, the file item, str(rel_path))`. -/
abbrev FileRec := String × FS × String

/-- The mutable state closed over by `_build_tree`. -/
structure TState where
  result : List String
  file_contents : List (String × FileRec)

/-- Python dict assignment `m[k] = v`: replace in place if the key exists,
else append (insertion order preserved). -/
def dictInsert (m : List (String × FileRec)) (k : String) (v : FileRec) :
    List (String × FileRec) :=
  if m.any (fun e => e.1 == k) then
    m.map (fun e => if e.1 == k then (k, v) else e)
  else m ++ [(k, v)]

/-- `FOLDER_SYMBOL`. -/
def FOLDER_SYMBOL : String := "📁"

/-- `FILE_SYMBOL`. -/
def FILE_SYMBOL : String := "📄"

/-- The file loop at the end of `_build_tree`'s body.  `base` is the list of
parts of the root `directory_path` (first component `"/"` when it is
absolute), `rel` the relative components of the directory being listed, so a
file's path is `base ++ rel ++ [name]` and its `relative_to(directory_path)`
is `rel ++ [name]` joined with `/`. -/
def buildFiles (cfg : Config) (base rel : List String) (pre indent : String) :
    List FS → TState → TState
  | [], s => s
  | f :: rest, s =>
    let s1 :=
      if _should_ignore cfg (base ++ rel ++ [f.name]) ||
          (determine_file_language f.name).isNone then s
      else
        let rel_path := String.intercalate "/" (rel ++ [f.name])
        let anchor_id := create_anchor_id rel_path
        let s' := { s with
          result := s.result ++
            [pre ++ indent ++ "- " ++ FILE_SYMBOL ++ " [" ++ f.name ++ "](#" ++
              anchor_id ++ ")"] }
        if cfg.include_file_contents then
          { s' with
            file_contents :=
              dictInsert s'.file_contents (rel_path ++ "//" ++ f.name)
                (anchor_id, f, rel_path) }
        else s'
    buildFiles cfg base rel pre indent rest s1

mutual

/-- `_build_tree(directory, prefix, indent)`.  `node` is the directory being
listed (`dir _ none` models `iterdir` raising `PermissionError`); the `file`
case is unreachable, as the function is only invoked on the root directory
and on `is_dir` children. -/
def _build_tree (cfg : Config) (base rel : List String) (node : FS)
    (pre indent : String) (s : TState) : TState :=
  match node with
  | .file _ _ => s
  | .dir _ none =>
    { s with result := s.result ++ [pre ++ indent ++ "- ⚠️ [Permission denied]"] }
  | .dir _ (some items) =>
    let dirs := sortedByName (items.filter FS.is_dir)
    let files := sortedByName (items.filter FS.is_file)
    let s1 := buildDirs cfg base rel pre indent dirs s
    buildFiles cfg base rel pre indent files s1
termination_by sizeOf node
decreasing_by
  have h1 := sizeOf_sortedByName (items.filter FS.is_dir)
  have h2 := sizeOf_filter_le FS.is_dir items
  simp only [FS.dir.sizeOf_spec, Option.some.sizeOf_spec]
  omega

/-- The directory loop in `_build_tree`'s body: skip ignored entries, emit
the folder line, recurse. -/
def buildDirs (cfg : Config) (base rel : List String) (pre indent : String) :
    List FS → TState → TState
  | [], s => s
  | d :: rest, s =>
    let s1 :=
      if _should_ignore cfg (base ++ rel ++ [d.name]) then s
      else
        let s' := { s with
          result := s.result ++
            [pre ++ indent ++ "- " ++ FOLDER_SYMBOL ++ " " ++ d.name] }
        _build_tree cfg base (rel ++ [d.name]) d (pre ++ indent) indent s'
    buildDirs cfg base rel pre indent rest s1
termination_by l => sizeOf l
decreasing_by
  · simp only [List.cons.sizeOf_spec]; omega
  · simp only [List.cons.sizeOf_spec]; omega

end

/-! ### The content emitter -/

/-- `str.rstrip`'s whitespace, ASCII fragment: space, `\t`–`\r` (0x09–0x0D)
and the separator characters 0x1C–0x1F, exactly the ASCII characters Python's
`str.isspace` accepts. -/
def pyIsSpace (c : Char) : Bool :=
  c == ' ' || c == '\t' || c == '\n' || c == '\r' || c == '\x0b' || c == '\x0c' ||
    c == '\x1c' || c == '\x1d' || c == '\x1e' || c == '\x1f'

/-- `content.rstrip()`. -/
def pyRstrip (s : String) : String :=
  String.mk ((s.toList.reverse.dropWhile pyIsSpace).reverse)

/-- `file_path.read_text(...)`.  On a directory this raises
`IsADirectoryError`, caught by the same `except` as any read error; records
only ever hold files. -/
def readText : FS → Except String String
  | .file _ c => c
  | .dir _ _ => Except.error "is a directory"

/-- The numbering loop: `for i, line in enumerate(content_lines, 1):
numbered_lines.append(f"{i}: {line}")`. -/
def numberLines (i : Nat) : List String → List String
  | [] => []
  | line :: rest => (toString i ++ ": " ++ line) :: numberLines (i + 1) rest

/-- One iteration of the content loop.  `none` models the `assert language is
not None` failing (an `AssertionError` aborting the whole run). -/
def emitFileSection (anchor_id : String) (item : FS) (rel_path : String) :
    Option (List String) :=
  match determine_file_language item.name with
  | none => none
  | some language =>
    let head := ["## " ++ anchor_id, "file: " ++ rel_path,
                 "Here is contents of " ++ rel_path ++ " with line numbers:"]
    match readText item with
    | .error e => some (head ++ ["*Error reading file: " ++ e ++ "*\n"])
    | .ok content =>
      let content_lines := pySplit '\n' (pyRstrip content)
      let numbered_lines := numberLines 1 content_lines
      some (head ++
        ["```" ++ language, String.intercalate "\n" numbered_lines, "```", "---\n"])

/-- The content loop over `file_contents.items()`. -/
def emitContents : List (String × FileRec) → Option (List String)
  | [] => some []
  | (_, anchor_id, item, rel_path) :: rest =>
    match emitFileSection anchor_id item rel_path with
    | none => none
    | some ls => (emitContents rest).map (fun ms => ls ++ ms)

/-! ### Top-level orchestration -/

/-- The observable outcome of one run: console prints in order, the optional
file write, and the Python return value (`some` = a `str`, `none` would be
Python's `None`). -/
structure RunResult where
  printed : List String
  written : Option (String × String)
  returned : Option String

/-- `generate_repo_structure_to_markdown(path, output_file, ignore_patterns,
ignore_hidden, include_file_contents)`.  `base` holds the parts of
`pathlib.Path(path)` (first component `"/"` when the path is absolute) and
`root_name` models `directory_path.name or str(directory_path)`; the root
directory's listing outcome is `rootChildren`.  The overall `none` models the
run dying on the internal `assert` in the content loop.  `if output_file:`
is a truthiness test, so an empty path string triggers neither the write nor
the save notice. -/
def generate_repo_structure_to_markdown (base : List String) (root_name : String)
    (rootChildren : Option (List FS)) (output_file : Option String)
    (cfg : Config) : Option RunResult :=
  let s0 : TState :=
    ⟨["This is a source code repo with markdown formatting.\n",
      "# Repository Structure",
      "We use " ++ FOLDER_SYMBOL ++ " to represent folder, and " ++ FILE_SYMBOL ++
        " as file.\n",
      "- " ++ FOLDER_SYMBOL ++ " " ++ root_name], []⟩
  let s1 := _build_tree cfg base [] (FS.dir root_name rootChildren) "" "  " s0
  let contents? : Option (List String) :=
    if cfg.include_file_contents && !s1.file_contents.isEmpty then
      (emitContents s1.file_contents).map
        (fun ls => ["\n---\n", "# File Contents\n"] ++ ls)
    else some []
  match contents? with
  | none => none
  | some cls =>
    let markdown_structure := String.intercalate "\n" (s1.result ++ cls)
    some { printed := [markdown_structure] ++
             (match output_file with
              | some f =>
                if f == "" then [] else ["Repository structure saved to " ++ f]
              | none => []),
           written :=
             (match output_file with
              | some f =>
                if f == "" then none else some (f, markdown_structure)
              | none => none),
           returned := some markdown_structure }

/-! ## Metatheory -/

/-! ### Equation lemmas for the traversal -/

theorem buildDirs_nil (cfg : Config) (base rel : List String) (pre indent : String)
    (s : TState) : buildDirs cfg base rel pre indent [] s = s := by
  rw [buildDirs]

theorem buildDirs_cons (cfg : Config) (base rel : List String) (pre indent : String)
    (d : FS) (rest : List FS) (s : TState) :
    buildDirs cfg base rel pre indent (d :: rest) s =
      buildDirs cfg base rel pre indent rest
        (if _should_ignore cfg (base ++ rel ++ [d.name]) then s
         else
           _build_tree cfg base (rel ++ [d.name]) d (pre ++ indent) indent
             { s with
               result := s.result ++
                 [pre ++ indent ++ "- " ++ FOLDER_SYMBOL ++ " " ++ d.name] }) := by
  rw [buildDirs]

theorem buildFiles_nil (cfg : Config) (base rel : List String) (pre indent : String)
    (s : TState) : buildFiles cfg base rel pre indent [] s = s := by
  rw [buildFiles]

theorem buildFiles_cons (cfg : Config) (base rel : List String) (pre indent : String)
    (f : FS) (rest : List FS) (s : TState) :
    buildFiles cfg base rel pre indent (f :: rest) s =
      buildFiles cfg base rel pre indent rest
        (if _should_ignore cfg (base ++ rel ++ [f.name]) ||
            (determine_file_language f.name).isNone then s
         else
           let rel_path := String.intercalate "/" (rel ++ [f.name])
           let anchor_id := create_anchor_id rel_path
           let s' := { s with
             result := s.result ++
               [pre ++ indent ++ "- " ++ FILE_SYMBOL ++ " [" ++ f.name ++ "](#" ++
                 anchor_id ++ ")"] }
           if cfg.include_file_contents then
             { s' with
               file_contents :=
                 dictInsert s'.file_contents (rel_path ++ "//" ++ f.name)
                   (anchor_id, f, rel_path) }
           else s') := by
  rw [buildFiles]

theorem _build_tree_file (cfg : Config) (base rel : List String) (n : String)
    (c : Except String String) (pre indent : String) (s : TState) :
    _build_tree cfg base rel (FS.file n c) pre indent s = s := by
  rw [_build_tree]

theorem _build_tree_perm (cfg : Config) (base rel : List String) (n : String)
    (pre indent : String) (s : TState) :
    _build_tree cfg base rel (FS.dir n none) pre indent s =
      { s with result := s.result ++ [pre ++ indent ++ "- ⚠️ [Permission denied]"] } := by
  rw [_build_tree]

theorem _build_tree_dir (cfg : Config) (base rel : List String) (n : String)
    (items : List FS) (pre indent : String) (s : TState) :
    _build_tree cfg base rel (FS.dir n (some items)) pre indent s =
      buildFiles cfg base rel pre indent (sortedByName (items.filter FS.is_file))
        (buildDirs cfg base rel pre indent (sortedByName (items.filter FS.is_dir)) s) := by
  rw [_build_tree]

/-! ### Skipping an entry is dropping it -/

/-- Ignored directories are simply skipped: the loop behaves as if they were
not in the list. -/
theorem buildDirs_filter_not_ignored (cfg : Config) (base rel : List String)
    (pre indent : String) :
    ∀ (l : List FS) (s : TState),
      buildDirs cfg base rel pre indent l s =
        buildDirs cfg base rel pre indent
          (l.filter (fun d => !_should_ignore cfg (base ++ rel ++ [d.name]))) s := by
  intro l
  induction l with
  | nil => intro s; simp
  | cons d rest ih =>
    intro s
    rw [buildDirs_cons, List.filter_cons]
    by_cases hig : _should_ignore cfg (base ++ rel ++ [d.name]) = true
    · simp only [hig, Bool.not_true, if_true, if_false, Bool.false_eq_true]
      exact ih s
    · simp only [Bool.not_eq_true] at hig
      simp only [hig, Bool.not_false, if_true, if_false, Bool.false_eq_true,
        buildDirs_cons]
      exact ih _

/-- Ignored or language-unresolvable files are simply skipped. -/
theorem buildFiles_filter_not_skipped (cfg : Config) (base rel : List String)
    (pre indent : String) :
    ∀ (l : List FS) (s : TState),
      buildFiles cfg base rel pre indent l s =
        buildFiles cfg base rel pre indent
          (l.filter (fun f =>
            !(_should_ignore cfg (base ++ rel ++ [f.name]) ||
              (determine_file_language f.name).isNone))) s := by
  intro l
  induction l with
  | nil => intro s; simp
  | cons f rest ih =>
    intro s
    rw [buildFiles_cons, List.filter_cons]
    by_cases hsk : (_should_ignore cfg (base ++ rel ++ [f.name]) ||
        (determine_file_language f.name).isNone) = true
    · simp only [hsk, Bool.not_true, if_true, if_false, Bool.false_eq_true]
      exact ih s
    · simp only [Bool.not_eq_true] at hsk
      simp only [hsk, Bool.not_false, if_true, if_false, Bool.false_eq_true,
        buildFiles_cons]
      exact ih _

/-! ### Stable sorting commutes with filtering -/

section SortFilter

variable {α : Type} (r : α → α → Prop) [DecidableRel r]

theorem orderedInsert_of_forall_le {a : α} {l : List α} (h : ∀ x ∈ l, r a x) :
    l.orderedInsert r a = a :: l := by
  cases l with
  | nil => rfl
  | cons b t => exact List.orderedInsert_of_le r t (h b (List.mem_cons_self b t))

theorem filter_orderedInsert [IsTrans α r] (p : α → Bool) (a : α) :
    ∀ l : List α, l.Sorted r →
      (l.orderedInsert r a).filter p =
        if p a then (l.filter p).orderedInsert r a else l.filter p := by
  intro l
  induction l with
  | nil =>
    intro _
    by_cases hpa : p a = true <;> simp [List.filter_cons, hpa]
  | cons b t ih =>
    intro hs
    have hst := hs.of_cons
    have hbt := List.rel_of_sorted_cons hs
    simp only [List.orderedInsert]
    by_cases hab : r a b
    · rw [if_pos hab]
      by_cases hpa : p a = true
      · have hall : ∀ x ∈ (b :: t).filter p, r a x := by
          intro x hx
          have hx' := List.mem_of_mem_filter hx
          rcases List.mem_cons.1 hx' with h1 | h2
          · exact h1 ▸ hab
          · exact Trans.trans hab (hbt x h2)
        rw [if_pos hpa, orderedInsert_of_forall_le r hall]
        simp [List.filter_cons, hpa]
      · simp only [Bool.not_eq_true] at hpa
        rw [if_neg (by simp [hpa])]
        simp [List.filter_cons, hpa]
    · rw [if_neg hab]
      by_cases hpb : p b = true
      · simp only [List.filter_cons, hpb, if_true]
        rw [ih hst]
        by_cases hpa : p a = true
        · simp only [hpa, if_true, List.orderedInsert, if_neg hab]
        · simp only [hpa, Bool.false_eq_true, if_false]
      · simp only [Bool.not_eq_true] at hpb
        simp only [List.filter_cons, hpb, Bool.false_eq_true, if_false]
        rw [ih hst]

theorem filter_insertionSort [IsTotal α r] [IsTrans α r] (p : α → Bool) :
    ∀ l : List α,
      (l.insertionSort r).filter p = (l.filter p).insertionSort r := by
  intro l
  induction l with
  | nil => rfl
  | cons a t ih =>
    simp only [List.insertionSort, List.filter_cons]
    rw [filter_orderedInsert r p a _ (List.sorted_insertionSort r t), ih]
    by_cases hpa : p a = true
    · simp only [hpa, if_true, List.insertionSort]
    · simp only [hpa, Bool.false_eq_true, if_false]

end SortFilter

/-! ### Pruning invisible entries

`pruneTree keep` removes, at every level, the entries with `keep x = false`
(and everything beneath them).  When every removed entry is one the traversal
skips anyway, pruning does not change the traversal's result; this makes the
"absent from the output" claims precise. -/

mutual

/-- Remove all entries failing `keep`, recursively. -/
def pruneTree (keep : FS → Bool) : FS → FS
  | .file n c => .file n c
  | .dir n none => .dir n none
  | .dir n (some items) => .dir n (some (pruneList keep (items.filter keep)))
termination_by node => sizeOf node
decreasing_by
  have := sizeOf_filter_le keep items
  simp only [FS.dir.sizeOf_spec, Option.some.sizeOf_spec]
  omega

/-- `pruneTree` mapped over a list. -/
def pruneList (keep : FS → Bool) : List FS → List FS
  | [] => []
  | x :: rest => pruneTree keep x :: pruneList keep rest
termination_by l => sizeOf l
decreasing_by
  · simp only [List.cons.sizeOf_spec]; omega
  · simp only [List.cons.sizeOf_spec]; omega

end

theorem pruneList_eq_map (keep : FS → Bool) :
    ∀ l : List FS, pruneList keep l = l.map (pruneTree keep) := by
  intro l
  induction l with
  | nil => rw [pruneList]; rfl
  | cons x rest ih => rw [pruneList, ih]; rfl

theorem pruneTree_name (keep : FS → Bool) (x : FS) :
    (pruneTree keep x).name = x.name := by
  match x with
  | .file n c => rw [pruneTree]
  | .dir n none => rw [pruneTree]
  | .dir n (some items) => rw [pruneTree]; simp [FS.name]

theorem pruneTree_is_dir (keep : FS → Bool) (x : FS) :
    (pruneTree keep x).is_dir = x.is_dir := by
  match x with
  | .file n c => rw [pruneTree]
  | .dir n none => rw [pruneTree]
  | .dir n (some items) => rw [pruneTree]; simp [FS.is_dir]

theorem pruneTree_is_file (keep : FS → Bool) (x : FS) :
    (pruneTree keep x).is_file = x.is_file := by
  match x with
  | .file n c => rw [pruneTree]
  | .dir n none => rw [pruneTree]
  | .dir n (some items) => rw [pruneTree]; simp [FS.is_file]

theorem pruneTree_of_file (keep : FS → Bool) (x : FS) (h : x.is_file = true) :
    pruneTree keep x = x := by
  match x with
  | .file n c => rw [pruneTree]
  | .dir n ch => simp [FS.is_file] at h

/-- Mapping `pruneTree` over a list of files is the identity. -/
theorem map_pruneTree_of_files (keep : FS → Bool) (l : List FS)
    (h : ∀ x ∈ l, x.is_file = true) : l.map (pruneTree keep) = l := by
  induction l with
  | nil => rfl
  | cons x rest ih =>
    simp only [List.map_cons]
    rw [pruneTree_of_file keep x (h x (List.mem_cons_self x rest)),
      ih (fun y hy => h y (List.mem_cons_of_mem x hy))]

/-- `sortedByName` commutes with `pruneTree`-mapping (names are preserved). -/
theorem sortedByName_map_pruneTree (keep : FS → Bool) (l : List FS) :
    sortedByName (l.map (pruneTree keep)) = (sortedByName l).map (pruneTree keep) := by
  unfold sortedByName
  rw [List.map_insertionSort fsLe fsLe (pruneTree keep) l]
  intro a _ b _
  unfold fsLe
  rw [pruneTree_name, pruneTree_name]

theorem mem_sortedByName {x : FS} {l : List FS} : x ∈ sortedByName l ↔ x ∈ l :=
  List.mem_insertionSort fsLe

/-- Filtering by `k` first is invisible when every element passing `p` and
`q` already passes `k`. -/
theorem filter_filter_keep_sub {α : Type} {p q k : α → Bool}
    (h : ∀ x, p x = true → q x = true → k x = true) :
    ∀ items : List α, ((items.filter k).filter q).filter p = (items.filter q).filter p := by
  intro items
  induction items with
  | nil => rfl
  | cons a t ih =>
    cases hk : k a with
    | true =>
      cases hq : q a with
      | true =>
        cases hp : p a with
        | true => simp [List.filter_cons, hk, hq, hp, ih, -List.filter_filter]
        | false => simp [List.filter_cons, hk, hq, hp, ih, -List.filter_filter]
      | false => simp [List.filter_cons, hk, hq, ih, -List.filter_filter]
    | false =>
      cases hq : q a with
      | false => simp [List.filter_cons, hk, hq, ih, -List.filter_filter]
      | true =>
        cases hp : p a with
        | false => simp [List.filter_cons, hk, hq, hp, ih, -List.filter_filter]
        | true =>
          exact absurd (h a hp hq) (by rw [hk]; exact Bool.false_ne_true)

set_option maxHeartbeats 2000000

mutual

/-- Pruning entries that the traversal skips anyway does not change the
traversal: `hdir` says every pruned directory is ignored, `hfile` that every
pruned file is ignored or language-unresolvable. -/
theorem build_tree_prune (cfg : Config) (base : List String) (keep : FS → Bool)
    (hdir : ∀ x : FS, x.is_dir = true → keep x = false →
      ∀ comps : List String, _should_ignore cfg (comps ++ [x.name]) = true)
    (hfile : ∀ x : FS, x.is_file = true → keep x = false →
      ∀ comps : List String, _should_ignore cfg (comps ++ [x.name]) = true ∨
        determine_file_language x.name = none)
    (node : FS) :
    ∀ (rel : List String) (pre indent : String) (s : TState),
      _build_tree cfg base rel (pruneTree keep node) pre indent s =
        _build_tree cfg base rel node pre indent s := by
  intro rel pre indent s
  match node with
  | .file n c => rw [pruneTree]
  | .dir n none => rw [pruneTree]
  | .dir n (some items) =>
    rw [pruneTree, _build_tree_dir, _build_tree_dir, pruneList_eq_map]
    have hcompd : (FS.is_dir ∘ pruneTree keep) = FS.is_dir := by
      funext x; exact pruneTree_is_dir keep x
    have hcompf : (FS.is_file ∘ pruneTree keep) = FS.is_file := by
      funext x; exact pruneTree_is_file keep x
    have hcompn :
        ((fun d => !_should_ignore cfg (base ++ rel ++ [d.name])) ∘ pruneTree keep) =
          (fun d => !_should_ignore cfg (base ++ rel ++ [d.name])) := by
      funext x; simp only [Function.comp_apply, pruneTree_name]
    have hkeepd : ∀ x : FS,
        (!_should_ignore cfg (base ++ rel ++ [x.name])) = true →
        FS.is_dir x = true → keep x = true := by
      intro x hni hd
      cases hkx : keep x with
      | true => rfl
      | false =>
        rw [hdir x hd hkx (base ++ rel)] at hni
        simp at hni
    have hkeepf : ∀ x : FS,
        (!(_should_ignore cfg (base ++ rel ++ [x.name]) ||
          (determine_file_language x.name).isNone)) = true →
        FS.is_file x = true → keep x = true := by
      intro x hns hf
      cases hkx : keep x with
      | true => rfl
      | false =>
        rcases hfile x hf hkx (base ++ rel) with hig | hlang
        · rw [hig] at hns; simp at hns
        · rw [hlang] at hns; simp at hns
    rw [List.filter_map, List.filter_map, hcompd, hcompf]
    rw [sortedByName_map_pruneTree, sortedByName_map_pruneTree]
    rw [map_pruneTree_of_files keep
      (sortedByName ((items.filter keep).filter FS.is_file))
      (fun x hx => (List.mem_filter.1 (mem_sortedByName.1 hx)).2)]
    rw [buildDirs_filter_not_ignored cfg base rel pre indent
      ((sortedByName ((items.filter keep).filter FS.is_dir)).map (pruneTree keep)) s]
    rw [List.filter_map, hcompn]
    rw [buildDirs_map_prune cfg base keep hdir hfile
      ((sortedByName ((items.filter keep).filter FS.is_dir)).filter
        (fun d => !_should_ignore cfg (base ++ rel ++ [d.name]))) rel pre indent s]
    have hlistd :
        (sortedByName ((items.filter keep).filter FS.is_dir)).filter
            (fun d => !_should_ignore cfg (base ++ rel ++ [d.name])) =
          (sortedByName (items.filter FS.is_dir)).filter
            (fun d => !_should_ignore cfg (base ++ rel ++ [d.name])) := by
      unfold sortedByName
      rw [filter_insertionSort fsLe _ ((items.filter keep).filter FS.is_dir),
        filter_insertionSort fsLe _ (items.filter FS.is_dir)]
      congr 1
      exact filter_filter_keep_sub hkeepd items
    rw [hlistd]
    rw [← buildDirs_filter_not_ignored cfg base rel pre indent
      (sortedByName (items.filter FS.is_dir)) s]
    rw [buildFiles_filter_not_skipped cfg base rel pre indent
      (sortedByName ((items.filter keep).filter FS.is_file)) _]
    have hlistf :
        (sortedByName ((items.filter keep).filter FS.is_file)).filter
            (fun f => !(_should_ignore cfg (base ++ rel ++ [f.name]) ||
              (determine_file_language f.name).isNone)) =
          (sortedByName (items.filter FS.is_file)).filter
            (fun f => !(_should_ignore cfg (base ++ rel ++ [f.name]) ||
              (determine_file_language f.name).isNone)) := by
      unfold sortedByName
      rw [filter_insertionSort fsLe _ ((items.filter keep).filter FS.is_file),
        filter_insertionSort fsLe _ (items.filter FS.is_file)]
      congr 1
      exact filter_filter_keep_sub hkeepf items
    rw [hlistf]
    rw [← buildFiles_filter_not_skipped cfg base rel pre indent
      (sortedByName (items.filter FS.is_file)) _]
termination_by sizeOf node
decreasing_by
  have e1 := sizeOf_sortedByName ((items.filter keep).filter FS.is_dir)
  have e2 := sizeOf_filter_le FS.is_dir (items.filter keep)
  have e3 := sizeOf_filter_le keep items
  have e4 := sizeOf_filter_le
    (fun d => !_should_ignore cfg (base ++ rel ++ [d.name]))
    (sortedByName ((items.filter keep).filter FS.is_dir))
  simp only [FS.dir.sizeOf_spec, Option.some.sizeOf_spec]
  omega

/-- Companion to `build_tree_prune`: recursing into pruned directories gives
the same state as recursing into the originals. -/
theorem buildDirs_map_prune (cfg : Config) (base : List String) (keep : FS → Bool)
    (hdir : ∀ x : FS, x.is_dir = true → keep x = false →
      ∀ comps : List String, _should_ignore cfg (comps ++ [x.name]) = true)
    (hfile : ∀ x : FS, x.is_file = true → keep x = false →
      ∀ comps : List String, _should_ignore cfg (comps ++ [x.name]) = true ∨
        determine_file_language x.name = none)
    (l : List FS) :
    ∀ (rel : List String) (pre indent : String) (s : TState),
      buildDirs cfg base rel pre indent (l.map (pruneTree keep)) s =
        buildDirs cfg base rel pre indent l s := by
  intro rel pre indent s
  match l with
  | [] => rfl
  | d :: rest =>
    simp only [List.map_cons]
    rw [buildDirs_cons, buildDirs_cons]
    rw [pruneTree_name]
    rw [buildDirs_map_prune cfg base keep hdir hfile rest rel pre indent]
    congr 1
    by_cases hig : _should_ignore cfg (base ++ rel ++ [d.name]) = true
    · rw [if_pos hig, if_pos hig]
    · rw [if_neg hig, if_neg hig]
      exact build_tree_prune cfg base keep hdir hfile d (rel ++ [d.name])
        (pre ++ indent) indent _
termination_by sizeOf l
decreasing_by
  · simp only [List.cons.sizeOf_spec]; omega
  · simp only [List.cons.sizeOf_spec]; omega

end

set_option maxHeartbeats 400000

/-! ### The lines a traversal emits

`result` only ever grows by appending, and what is appended depends neither
on the lines already accumulated nor on the recorded files; this makes the
emitted lines a function of the inputs alone. -/

/-- The folder line emitted for directory `d`. -/
def dirLineStr (pre indent : String) (d : FS) : String :=
  pre ++ indent ++ "- " ++ FOLDER_SYMBOL ++ " " ++ d.name

/-- The file line emitted for file `f`. -/
def fileLineStr (rel : List String) (pre indent : String) (f : FS) : String :=
  pre ++ indent ++ "- " ++ FILE_SYMBOL ++ " [" ++ f.name ++ "](#" ++
    create_anchor_id (String.intercalate "/" (rel ++ [f.name])) ++ ")"

/-- The lines `_build_tree` appends when called on `node`. -/
def treeLines (cfg : Config) (base rel : List String) (node : FS)
    (pre indent : String) : List String :=
  (_build_tree cfg base rel node pre indent ⟨[], []⟩).result

/-- The lines the directory loop appends. -/
def dirsLines (cfg : Config) (base rel : List String) (pre indent : String)
    (l : List FS) : List String :=
  (buildDirs cfg base rel pre indent l ⟨[], []⟩).result

/-- The lines the file loop appends. -/
def filesLines (cfg : Config) (base rel : List String) (pre indent : String)
    (l : List FS) : List String :=
  (buildFiles cfg base rel pre indent l ⟨[], []⟩).result

theorem buildFiles_result_split (cfg : Config) (base rel : List String)
    (pre indent : String) :
    ∀ (l : List FS) (r r' : List String) (fc fc' : List (String × FileRec)),
      (buildFiles cfg base rel pre indent l ⟨r ++ r', fc⟩).result =
        r ++ (buildFiles cfg base rel pre indent l ⟨r', fc'⟩).result := by
  intro l
  induction l with
  | nil => intro r r' fc fc'; rw [buildFiles_nil, buildFiles_nil]
  | cons f rest ih =>
    intro r r' fc fc'
    rw [buildFiles_cons, buildFiles_cons]
    by_cases hsk : (_should_ignore cfg (base ++ rel ++ [f.name]) ||
        (determine_file_language f.name).isNone) = true
    · rw [if_pos hsk, if_pos hsk]
      exact ih r r' fc fc'
    · rw [if_neg hsk, if_neg hsk]
      simp only
      by_cases hin : cfg.include_file_contents = true
      · rw [if_pos hin, if_pos hin]
        simp only [List.append_assoc]
        exact ih r _ _ _
      · rw [if_neg hin, if_neg hin]
        simp only [List.append_assoc]
        exact ih r _ _ _

mutual

theorem build_tree_result_split (cfg : Config) (base : List String)
    (node : FS) :
    ∀ (rel : List String) (pre indent : String) (r r' : List String)
      (fc fc' : List (String × FileRec)),
      (_build_tree cfg base rel node pre indent ⟨r ++ r', fc⟩).result =
        r ++ (_build_tree cfg base rel node pre indent ⟨r', fc'⟩).result := by
  intro rel pre indent r r' fc fc'
  match node with
  | .file n c => rw [_build_tree_file, _build_tree_file]
  | .dir n none =>
    rw [_build_tree_perm, _build_tree_perm]
    simp [List.append_assoc]
  | .dir n (some items) =>
    rw [_build_tree_dir, _build_tree_dir]
    have hd := buildDirs_result_split cfg base
      (sortedByName (items.filter FS.is_dir)) rel pre indent r r' fc fc'
    cases h1 : buildDirs cfg base rel pre indent
        (sortedByName (items.filter FS.is_dir)) ⟨r ++ r', fc⟩ with
    | mk res1 fc1 =>
      cases h2 : buildDirs cfg base rel pre indent
          (sortedByName (items.filter FS.is_dir)) ⟨r', fc'⟩ with
      | mk res2 fc2 =>
        rw [h1, h2] at hd
        simp only at hd
        rw [hd]
        exact buildFiles_result_split cfg base rel pre indent
          (sortedByName (items.filter FS.is_file)) r res2 fc1 fc2
termination_by sizeOf node
decreasing_by
  have e1 := sizeOf_sortedByName (items.filter FS.is_dir)
  have e2 := sizeOf_filter_le FS.is_dir items
  simp only [FS.dir.sizeOf_spec, Option.some.sizeOf_spec]
  omega

theorem buildDirs_result_split (cfg : Config) (base : List String)
    (l : List FS) :
    ∀ (rel : List String) (pre indent : String) (r r' : List String)
      (fc fc' : List (String × FileRec)),
      (buildDirs cfg base rel pre indent l ⟨r ++ r', fc⟩).result =
        r ++ (buildDirs cfg base rel pre indent l ⟨r', fc'⟩).result := by
  intro rel pre indent r r' fc fc'
  match l with
  | [] => rw [buildDirs_nil, buildDirs_nil]
  | d :: rest =>
    rw [buildDirs_cons, buildDirs_cons]
    by_cases hig : _should_ignore cfg (base ++ rel ++ [d.name]) = true
    · rw [if_pos hig, if_pos hig]
      exact buildDirs_result_split cfg base rest rel pre indent r r' fc fc'
    · rw [if_neg hig, if_neg hig]
      simp only
      have ht := build_tree_result_split cfg base d (rel ++ [d.name])
        (pre ++ indent) indent r
        (r' ++ [pre ++ indent ++ "- " ++ FOLDER_SYMBOL ++ " " ++ d.name]) fc fc'
      rw [← List.append_assoc] at ht
      cases h1 : _build_tree cfg base (rel ++ [d.name]) d (pre ++ indent) indent
          ⟨r ++ r' ++ [pre ++ indent ++ "- " ++ FOLDER_SYMBOL ++ " " ++ d.name], fc⟩ with
      | mk res1 fc1 =>
        cases h2 : _build_tree cfg base (rel ++ [d.name]) d (pre ++ indent) indent
            ⟨r' ++ [pre ++ indent ++ "- " ++ FOLDER_SYMBOL ++ " " ++ d.name], fc'⟩ with
        | mk res2 fc2 =>
          rw [h1, h2] at ht
          simp only at ht
          rw [ht]
          exact buildDirs_result_split cfg base rest rel pre indent r res2 fc1 fc2
termination_by sizeOf l
decreasing_by
  · simp only [List.cons.sizeOf_spec]; omega
  · simp only [List.cons.sizeOf_spec]; omega
  · simp only [List.cons.sizeOf_spec]; omega

end

/-- `_build_tree` appends exactly `treeLines` to the accumulated output. -/
theorem tree_result (cfg : Config) (base rel : List String) (node : FS)
    (pre indent : String) (s : TState) :
    (_build_tree cfg base rel node pre indent s).result =
      s.result ++ treeLines cfg base rel node pre indent := by
  unfold treeLines
  have h := build_tree_result_split cfg base node rel pre indent s.result []
    s.file_contents []
  rw [List.append_nil] at h
  exact h

/-- The directory loop appends exactly `dirsLines`. -/
theorem dirs_result (cfg : Config) (base rel : List String)
    (pre indent : String) (l : List FS) (s : TState) :
    (buildDirs cfg base rel pre indent l s).result =
      s.result ++ dirsLines cfg base rel pre indent l := by
  unfold dirsLines
  have h := buildDirs_result_split cfg base l rel pre indent s.result []
    s.file_contents []
  rw [List.append_nil] at h
  exact h

/-- The file loop appends exactly `filesLines`. -/
theorem files_result (cfg : Config) (base rel : List String)
    (pre indent : String) (l : List FS) (s : TState) :
    (buildFiles cfg base rel pre indent l s).result =
      s.result ++ filesLines cfg base rel pre indent l := by
  unfold filesLines
  have h := buildFiles_result_split cfg base rel pre indent l s.result []
    s.file_contents []
  rw [List.append_nil] at h
  exact h

/-- What the file loop emits: one link line per non-skipped file, in order. -/
theorem filesLines_eq (cfg : Config) (base rel : List String)
    (pre indent : String) :
    ∀ l : List FS,
      filesLines cfg base rel pre indent l =
        (l.filter (fun f =>
          !(_should_ignore cfg (base ++ rel ++ [f.name]) ||
            (determine_file_language f.name).isNone))).map
          (fileLineStr rel pre indent) := by
  intro l
  induction l with
  | nil => unfold filesLines; rw [buildFiles_nil]; rfl
  | cons f rest ih =>
    unfold filesLines
    rw [buildFiles_cons, List.filter_cons]
    by_cases hsk : (_should_ignore cfg (base ++ rel ++ [f.name]) ||
        (determine_file_language f.name).isNone) = true
    · rw [if_pos hsk]
      simp only [hsk, Bool.not_true, Bool.false_eq_true, if_false]
      exact ih
    · rw [if_neg hsk]
      simp only [Bool.not_eq_true] at hsk
      simp only [hsk, Bool.not_false, if_true]
      rw [files_result]
      by_cases hin : cfg.include_file_contents = true
      · rw [if_pos hin, ih]; rfl
      · rw [if_neg hin, ih]; rfl

/-- What the directory loop emits: for each non-ignored directory its folder
line immediately followed by its whole subtree, depth first, in order. -/
theorem dirsLines_eq (cfg : Config) (base rel : List String)
    (pre indent : String) :
    ∀ l : List FS,
      dirsLines cfg base rel pre indent l =
        (l.filter (fun d => !_should_ignore cfg (base ++ rel ++ [d.name]))).flatMap
          (fun d => dirLineStr pre indent d ::
            treeLines cfg base (rel ++ [d.name]) d (pre ++ indent) indent) := by
  intro l
  induction l with
  | nil => unfold dirsLines; rw [buildDirs_nil]; rfl
  | cons d rest ih =>
    unfold dirsLines
    rw [buildDirs_cons, List.filter_cons]
    by_cases hig : _should_ignore cfg (base ++ rel ++ [d.name]) = true
    · rw [if_pos hig]
      simp only [hig, Bool.not_true, Bool.false_eq_true, if_false]
      exact ih
    · rw [if_neg hig]
      simp only [Bool.not_eq_true] at hig
      simp only [hig, Bool.not_false, if_true]
      rw [dirs_result, tree_result]
      simp only [List.flatMap_cons]
      rw [ih]
      rfl

/-! ### Every recorded file resolves to a language -/

/-- Every record in the `file_contents` dict re-resolves to a language. -/
def recsOK (m : List (String × FileRec)) : Prop :=
  ∀ e ∈ m, (determine_file_language e.2.2.1.name).isSome = true

theorem recsOK_nil : recsOK [] := by
  intro e he
  cases he

theorem dictInsert_recsOK {m : List (String × FileRec)} {k : String} {v : FileRec}
    (hm : recsOK m) (hv : (determine_file_language v.2.1.name).isSome = true) :
    recsOK (dictInsert m k v) := by
  unfold dictInsert
  split
  · intro e he
    obtain ⟨e', he', heq⟩ := List.mem_map.1 he
    by_cases hk : (e'.1 == k) = true
    · rw [if_pos hk] at heq
      subst heq
      exact hv
    · rw [if_neg hk] at heq
      subst heq
      exact hm e' he'
  · intro e he
    rcases List.mem_append.1 he with h1 | h2
    · exact hm e h1
    · rw [List.mem_singleton] at h2
      subst h2
      exact hv

theorem buildFiles_recsOK (cfg : Config) (base rel : List String)
    (pre indent : String) :
    ∀ (l : List FS) (s : TState), recsOK s.file_contents →
      recsOK (buildFiles cfg base rel pre indent l s).file_contents := by
  intro l
  induction l with
  | nil =>
    intro s hs
    rw [buildFiles_nil]
    exact hs
  | cons f rest ih =>
    intro s hs
    rw [buildFiles_cons]
    by_cases hsk : (_should_ignore cfg (base ++ rel ++ [f.name]) ||
        (determine_file_language f.name).isNone) = true
    · rw [if_pos hsk]
      exact ih s hs
    · rw [if_neg hsk]
      have hlang : (determine_file_language f.name).isSome = true := by
        cases hdet : determine_file_language f.name with
        | none => rw [hdet] at hsk; simp at hsk
        | some lang => rfl
      simp only
      by_cases hin : cfg.include_file_contents = true
      · rw [if_pos hin]
        apply ih
        exact dictInsert_recsOK hs hlang
      · rw [if_neg hin]
        exact ih _ hs

mutual

theorem build_tree_recsOK (cfg : Config) (base : List String) (node : FS) :
    ∀ (rel : List String) (pre indent : String) (s : TState),
      recsOK s.file_contents →
      recsOK (_build_tree cfg base rel node pre indent s).file_contents := by
  intro rel pre indent s hs
  match node with
  | .file n c =>
    rw [_build_tree_file]
    exact hs
  | .dir n none =>
    rw [_build_tree_perm]
    exact hs
  | .dir n (some items) =>
    rw [_build_tree_dir]
    apply buildFiles_recsOK
    exact buildDirs_recsOK cfg base (sortedByName (items.filter FS.is_dir))
      rel pre indent s hs
termination_by sizeOf node
decreasing_by
  have e1 := sizeOf_sortedByName (items.filter FS.is_dir)
  have e2 := sizeOf_filter_le FS.is_dir items
  simp only [FS.dir.sizeOf_spec, Option.some.sizeOf_spec]
  omega

theorem buildDirs_recsOK (cfg : Config) (base : List String) (l : List FS) :
    ∀ (rel : List String) (pre indent : String) (s : TState),
      recsOK s.file_contents →
      recsOK (buildDirs cfg base rel pre indent l s).file_contents := by
  intro rel pre indent s hs
  match l with
  | [] =>
    rw [buildDirs_nil]
    exact hs
  | d :: rest =>
    rw [buildDirs_cons]
    apply buildDirs_recsOK cfg base rest rel pre indent
    by_cases hig : _should_ignore cfg (base ++ rel ++ [d.name]) = true
    · rw [if_pos hig]
      exact hs
    · rw [if_neg hig]
      exact build_tree_recsOK cfg base d (rel ++ [d.name]) (pre ++ indent) indent _ hs
termination_by sizeOf l
decreasing_by
  · simp only [List.cons.sizeOf_spec]; omega
  · simp only [List.cons.sizeOf_spec]; omega

end

/-- On a dict of resolvable records the content loop never hits the fatal
`assert`. -/
theorem emitContents_some : ∀ {m : List (String × FileRec)}, recsOK m →
    ∃ ls, emitContents m = some ls := by
  intro m
  induction m with
  | nil => intro _; exact ⟨[], rfl⟩
  | cons e rest ih =>
    intro hm
    obtain ⟨k, anchor_id, item, rel_path⟩ := e
    have hl := hm (k, anchor_id, item, rel_path) (List.mem_cons_self _ _)
    simp only at hl
    obtain ⟨ls', hls'⟩ := ih (fun e' he' => hm e' (List.mem_cons_of_mem _ he'))
    cases hdet : determine_file_language item.name with
    | none => rw [hdet] at hl; simp at hl
    | some language =>
      rw [emitContents]
      unfold emitFileSection
      rw [hdet]
      cases hrt : readText item with
      | error e => rw [hls']; exact ⟨_, rfl⟩
      | ok content => rw [hls']; exact ⟨_, rfl⟩

/-! ### The generated markdown -/

/-- The markdown string one run produces (total description; by
`emitContents_some` the `getD` never supplies the default). -/
def genMarkdown (base : List String) (root_name : String)
    (rootChildren : Option (List FS)) (cfg : Config) : String :=
  let s0 : TState :=
    ⟨["This is a source code repo with markdown formatting.\n",
      "# Repository Structure",
      "We use " ++ FOLDER_SYMBOL ++ " to represent folder, and " ++ FILE_SYMBOL ++
        " as file.\n",
      "- " ++ FOLDER_SYMBOL ++ " " ++ root_name], []⟩
  let s1 := _build_tree cfg base [] (FS.dir root_name rootChildren) "" "  " s0
  let cls : List String :=
    if cfg.include_file_contents && !s1.file_contents.isEmpty then
      ["\n---\n", "# File Contents\n"] ++ (emitContents s1.file_contents).getD []
    else []
  String.intercalate "\n" (s1.result ++ cls)

/-- A run never aborts, prints the markdown (plus the save notice when a file
is written), writes it when asked, and returns it. -/
theorem generate_eq_some (base : List String) (root_name : String)
    (rootChildren : Option (List FS)) (output_file : Option String) (cfg : Config) :
    generate_repo_structure_to_markdown base root_name rootChildren output_file cfg =
      some { printed := [genMarkdown base root_name rootChildren cfg] ++
               (match output_file with
                | some f =>
                  if f == "" then [] else ["Repository structure saved to " ++ f]
                | none => []),
             written :=
               (match output_file with
                | some f =>
                  if f == "" then none
                  else some (f, genMarkdown base root_name rootChildren cfg)
                | none => none),
             returned := some (genMarkdown base root_name rootChildren cfg) } := by
  have hrec : recsOK ((_build_tree cfg base []
      (FS.dir root_name rootChildren) "" "  "
      ⟨["This is a source code repo with markdown formatting.\n",
        "# Repository Structure",
        "We use " ++ FOLDER_SYMBOL ++ " to represent folder, and " ++ FILE_SYMBOL ++
          " as file.\n",
        "- " ++ FOLDER_SYMBOL ++ " " ++ root_name], []⟩).file_contents) :=
    build_tree_recsOK cfg base (FS.dir root_name rootChildren) [] "" "  " _ recsOK_nil
  unfold generate_repo_structure_to_markdown genMarkdown
  simp only
  by_cases hc : (cfg.include_file_contents &&
      !((_build_tree cfg base [] (FS.dir root_name rootChildren) "" "  "
        ⟨["This is a source code repo with markdown formatting.\n",
          "# Repository Structure",
          "We use " ++ FOLDER_SYMBOL ++ " to represent folder, and " ++ FILE_SYMBOL ++
            " as file.\n",
          "- " ++ FOLDER_SYMBOL ++ " " ++ root_name], []⟩).file_contents).isEmpty) = true
  · obtain ⟨ls, hls⟩ := emitContents_some hrec
    rw [if_pos hc, if_pos hc, hls]
    rfl
  · rw [if_neg hc, if_neg hc]

/-! ### Pruning at the root -/

/-- Prune the root directory's listing. -/
def pruneChildren (keep : FS → Bool) (rc : Option (List FS)) : Option (List FS) :=
  rc.map (fun items => pruneList keep (items.filter keep))

theorem generate_prune (keep : FS → Bool) (base : List String) (root_name : String)
    (rc : Option (List FS)) (output_file : Option String) (cfg : Config)
    (hdir : ∀ x : FS, x.is_dir = true → keep x = false →
      ∀ comps : List String, _should_ignore cfg (comps ++ [x.name]) = true)
    (hfile : ∀ x : FS, x.is_file = true → keep x = false →
      ∀ comps : List String, _should_ignore cfg (comps ++ [x.name]) = true ∨
        determine_file_language x.name = none) :
    generate_repo_structure_to_markdown base root_name (pruneChildren keep rc)
        output_file cfg =
      generate_repo_structure_to_markdown base root_name rc output_file cfg := by
  have hnode : FS.dir root_name (pruneChildren keep rc) =
      pruneTree keep (FS.dir root_name rc) := by
    cases rc with
    | none => rw [pruneTree]; rfl
    | some items => rw [pruneTree]; rfl
  have hs1 : ∀ s : TState,
      _build_tree cfg base [] (FS.dir root_name (pruneChildren keep rc)) "" "  " s =
        _build_tree cfg base [] (FS.dir root_name rc) "" "  " s := by
    intro s
    rw [hnode]
    exact build_tree_prune cfg base keep hdir hfile (FS.dir root_name rc) [] "" "  " s
  unfold generate_repo_structure_to_markdown
  simp only [hs1]

/-! ### The anchor slug, as the spec words it -/

/-- Replace every character outside `[a-z0-9]` with a dash (spec side of
§4.3; applied after lowercasing, so `A`–`Z` no longer occur). -/
def specSlugChar (c : Char) : Char :=
  if (97 ≤ c.toNat && c.toNat ≤ 122) || (48 ≤ c.toNat && c.toNat ≤ 57) then c
  else '-'

/-- The anchor generator as §4.3 words it: lowercase, dash out everything
outside `[a-z0-9]`, collapse dash runs, strip outer dashes. -/
def specSlug (s : String) : String :=
  String.mk (stripDashes (collapseDashes ((pyLower s).toList.map specSlugChar)))

theorem pyLower_toList (s : String) : (pyLower s).toList = s.toList.map pyToLower :=
  rfl

theorem pyToLower_not_upper (c : Char) :
    (65 ≤ (pyToLower c).toNat && (pyToLower c).toNat ≤ 90) = false := by
  unfold pyToLower
  by_cases h : (65 ≤ c.toNat && c.toNat ≤ 90) = true
  · rw [if_pos h]
    simp only [Bool.and_eq_true, decide_eq_true_eq] at h
    obtain ⟨h1, h2⟩ := h
    set n := c.toNat with hn
    interval_cases n <;> decide
  · rw [if_neg h]
    simp only [Bool.not_eq_true] at h
    exact h

theorem dashNonAlnum_eq_specSlugChar (c : Char)
    (hup : (65 ≤ c.toNat && c.toNat ≤ 90) = false) :
    dashNonAlnum c = specSlugChar c := by
  unfold dashNonAlnum specSlugChar
  rw [hup]
  simp

/-! ### Line numbering -/

theorem numberLines_length : ∀ (ls : List String) (i : Nat),
    (numberLines i ls).length = ls.length := by
  intro ls
  induction ls with
  | nil => intro i; rfl
  | cons line rest ih =>
    intro i
    rw [numberLines]
    simp only [List.length_cons, ih]

theorem numberLines_getD : ∀ (ls : List String) (i j : Nat), j < ls.length →
    (numberLines i ls).getD j "" = toString (i + j) ++ ": " ++ ls.getD j "" := by
  intro ls
  induction ls with
  | nil => intro i j hj; cases hj
  | cons line rest ih =>
    intro i j hj
    rw [numberLines]
    match j with
    | 0 => simp
    | j' + 1 =>
      simp only [List.getD_cons_succ]
      rw [ih (i + 1) j' (by simpa using hj)]
      have : i + 1 + j' = i + (j' + 1) := by omega
      rw [this]

/-! ### The ignore filter, as claim C1 words it -/

/-- A shell-glob wildcard character. -/
def isGlobWildcard (c : Char) : Bool := c == '*' || c == '?' || c == '['

/-- The exclusion predicate exactly as claim C1 states it: hidden name, exact
pattern match, or a pattern containing a wildcard character glob-matching the
entry's *name*. -/
def specExcludesC1 (cfg : Config) (name : String) : Bool :=
  (cfg.ignore_hidden && startsWithDot name) ||
  ((cfg.ignore_patterns.getD []).any (fun pat => pat == name)) ||
  ((cfg.ignore_patterns.getD []).any
    (fun pat => pat.toList.any isGlobWildcard && fnmatchcase name pat))

/-- Entries kept by claim C2's pruning: directories, and files whose
extension resolves to a language. -/
def keepSupported : FS → Bool :=
  fun x => x.is_dir || (determine_file_language x.name).isSome

/-- Entries kept by claim C3's pruning: names not starting with a dot. -/
def keepNonHidden : FS → Bool := fun x => !startsWithDot x.name

theorem is_dir_eq_false_of_is_file {x : FS} (h : x.is_file = true) :
    x.is_dir = false := by
  cases x with
  | file n c => rfl
  | dir n ch => simp [FS.is_file] at h

/-! ## Claims -/

/-- C1 (corrected): the claim's iff fails on the code in both directions.  A
pattern containing only the wildcard `?` (no `*`) is never glob-matched, so
`fo?` does not exclude `foo` although the claim says it must; and a pattern
containing `*` and a slash is matched by `pathlib` against the trailing
*path components*, not the name, so `a/*.py` excludes `x/a/b.py` although
glob-matching the name `b.py` alone fails. -/
theorem claim_C1_counterexample :
    (specExcludesC1
        { ignore_patterns := some ["fo?"], ignore_hidden := false,
          include_file_contents := true } "foo" = true ∧
      _should_ignore
        { ignore_patterns := some ["fo?"], ignore_hidden := false,
          include_file_contents := true } ["foo"] = false) ∧
    (_should_ignore
        { ignore_patterns := some ["a/*.py"], ignore_hidden := false,
          include_file_contents := true } ["x", "a", "b.py"] = true ∧
      specExcludesC1
        { ignore_patterns := some ["a/*.py"], ignore_hidden := false,
          include_file_contents := true } "b.py" = false) := by
  refine ⟨⟨?_, by decide⟩, ⟨?_, ?_⟩⟩
  · simp [specExcludesC1, startsWithDot, isGlobWildcard, fnmatchcase, globMatch]
  · simp [_should_ignore, startsWithDot, pathMatch, patParts, pySplit, splitCharAux,
      matchParts, fnmatchcase, globMatch]
  · simp [specExcludesC1, startsWithDot, isGlobWildcard, fnmatchcase, globMatch]

/-- C1 (amended): the filter excludes an entry iff `ignore_hidden` is on and
the name starts with a dot, or some pattern equals the name exactly, or some
pattern containing the character `*` matches the entry's path under
`pathlib.PurePath.match` semantics (for slash-free patterns, a shell-glob
match on the name).  The filter is a pure predicate of the entry and
configuration. -/
theorem claim_C1 (cfg : Config) (itemComps : List String) :
    _should_ignore cfg itemComps = true ↔
      (cfg.ignore_hidden = true ∧
        startsWithDot (itemComps.getLast?.getD "") = true) ∨
      (∃ pat ∈ cfg.ignore_patterns.getD [], pat = itemComps.getLast?.getD "") ∨
      (∃ pat ∈ cfg.ignore_patterns.getD [],
        pat.toList.contains '*' = true ∧ pathMatch itemComps pat = true) := by
  unfold _should_ignore
  by_cases hh : (cfg.ignore_hidden &&
      startsWithDot (itemComps.getLast?.getD "")) = true
  · rw [if_pos hh]
    simp only [Bool.and_eq_true] at hh
    exact iff_of_true rfl (Or.inl ⟨hh.1, hh.2⟩)
  · rw [if_neg hh]
    cases hp : cfg.ignore_patterns with
    | none =>
      simp only [hp, Option.getD_none]
      constructor
      · intro hF
        exact absurd hF Bool.false_ne_true
      · rintro (⟨h1, h2⟩ | ⟨pat, hm, _⟩ | ⟨pat, hm, _, _⟩)
        · exact absurd (by rw [h1, h2]; rfl) hh
        · cases hm
        · cases hm
    | some pats =>
      simp only [hp, Option.getD_some, List.any_eq_true, Bool.or_eq_true,
        beq_iff_eq, Bool.and_eq_true]
      constructor
      · rintro ⟨pat, hm, (heq | ⟨hstar, hmatch⟩)⟩
        · exact Or.inr (Or.inl ⟨pat, hm, heq⟩)
        · exact Or.inr (Or.inr ⟨pat, hm, hstar, hmatch⟩)
      · rintro (⟨h1, h2⟩ | ⟨pat, hm, heq⟩ | ⟨pat, hm, hstar, hmatch⟩)
        · exact absurd (by rw [h1, h2]; rfl) hh
        · exact ⟨pat, hm, Or.inl heq⟩
        · exact ⟨pat, hm, Or.inr ⟨hstar, hmatch⟩⟩

/-- C2: a file whose (lowercased, dotted) extension is absent from the
extension table appears neither in the tree nor in the content section: for
every configuration, the output is identical to the output on the tree with
every such file removed. -/
theorem claim_C2 (base : List String) (root_name : String)
    (rc : Option (List FS)) (output_file : Option String) (cfg : Config) :
    generate_repo_structure_to_markdown base root_name
        (pruneChildren keepSupported rc) output_file cfg =
      generate_repo_structure_to_markdown base root_name rc output_file cfg := by
  apply generate_prune
  · intro x hd hk _
    simp [keepSupported, hd] at hk
  · intro x hf hk _
    refine Or.inr ?_
    have hdx := is_dir_eq_false_of_is_file hf
    cases hdet : determine_file_language x.name with
    | none => rfl
    | some lang => simp [keepSupported, hdx, hdet] at hk

/-- C3: with `ignore_hidden` on, an entry whose name starts with a dot, and
everything beneath it, is absent from both sections: the output is identical
to the output on the tree with all dot-named entries pruned (in particular
the traversal never descends into them). -/
theorem claim_C3 (base : List String) (root_name : String)
    (rc : Option (List FS)) (output_file : Option String) (cfg : Config)
    (h : cfg.ignore_hidden = true) :
    generate_repo_structure_to_markdown base root_name
        (pruneChildren keepNonHidden rc) output_file cfg =
      generate_repo_structure_to_markdown base root_name rc output_file cfg := by
  apply generate_prune
  · intro x _ hk comps
    have hk' : startsWithDot x.name = true := by
      simpa [keepNonHidden] using hk
    unfold _should_ignore
    rw [List.getLast?_concat]
    simp [h, hk']
  · intro x _ hk comps
    refine Or.inl ?_
    have hk' : startsWithDot x.name = true := by
      simpa [keepNonHidden] using hk
    unfold _should_ignore
    rw [List.getLast?_concat]
    simp [h, hk']

/-- C3 witness at a concrete input. -/
theorem claim_C3_witness :
    ({ ignore_patterns := none, ignore_hidden := true,
        include_file_contents := true : Config }).ignore_hidden = true ∧
    generate_repo_structure_to_markdown ["repo"] "repo"
        (pruneChildren keepNonHidden
          (some [FS.dir ".git" (some [FS.file "x.py" (Except.ok "z")]),
                 FS.file "a.py" (Except.ok "w")]))
        none
        { ignore_patterns := none, ignore_hidden := true,
          include_file_contents := true } =
      generate_repo_structure_to_markdown ["repo"] "repo"
        (some [FS.dir ".git" (some [FS.file "x.py" (Except.ok "z")]),
               FS.file "a.py" (Except.ok "w")])
        none
        { ignore_patterns := none, ignore_hidden := true,
          include_file_contents := true } :=
  ⟨rfl, claim_C3 ["repo"] "repo"
    (some [FS.dir ".git" (some [FS.file "x.py" (Except.ok "z")]),
           FS.file "a.py" (Except.ok "w")])
    none
    { ignore_patterns := none, ignore_hidden := true,
      include_file_contents := true } rfl⟩

/-- C4: listing a directory emits the non-ignored subdirectories first, each
folder line immediately followed by that directory's fully recursed subtree
(depth-first, pre-order) before the next sibling, then the non-ignored,
language-resolvable files; both partitions are ordered case-insensitively by
name (the relation `fsLe` compares lowercased names). -/
theorem claim_C4 (cfg : Config) (base rel : List String) (n : String)
    (items : List FS) (pre indent : String) (s : TState) :
    ((_build_tree cfg base rel (FS.dir n (some items)) pre indent s).result =
      s.result ++
        ((sortedByName (items.filter FS.is_dir)).filter
            (fun d => !_should_ignore cfg (base ++ rel ++ [d.name]))).flatMap
          (fun d => dirLineStr pre indent d ::
            treeLines cfg base (rel ++ [d.name]) d (pre ++ indent) indent) ++
        ((sortedByName (items.filter FS.is_file)).filter
            (fun f => !(_should_ignore cfg (base ++ rel ++ [f.name]) ||
              (determine_file_language f.name).isNone))).map
          (fileLineStr rel pre indent)) ∧
    List.Sorted fsLe
      ((sortedByName (items.filter FS.is_dir)).filter
        (fun d => !_should_ignore cfg (base ++ rel ++ [d.name]))) ∧
    List.Sorted fsLe
      ((sortedByName (items.filter FS.is_file)).filter
        (fun f => !(_should_ignore cfg (base ++ rel ++ [f.name]) ||
          (determine_file_language f.name).isNone))) := by
  refine ⟨?_, ?_, ?_⟩
  · rw [tree_result]
    have hT : treeLines cfg base rel (FS.dir n (some items)) pre indent =
        dirsLines cfg base rel pre indent (sortedByName (items.filter FS.is_dir)) ++
          filesLines cfg base rel pre indent
            (sortedByName (items.filter FS.is_file)) := by
      unfold treeLines
      rw [_build_tree_dir, files_result, dirs_result]
      simp
    rw [hT, dirsLines_eq, filesLines_eq, List.append_assoc]
  · exact (List.sorted_insertionSort fsLe (items.filter FS.is_dir)).filter _
  · exact (List.sorted_insertionSort fsLe (items.filter FS.is_file)).filter _

/-- C5: for a readable recorded file, the fenced block holds exactly the
lines of the file after trailing whitespace is stripped from its end (split
on newlines), the `i`-th prefixed with its 1-based number as `"<n>: <line>"`. -/
theorem claim_C5 (nm content lang anchor_id rel_path : String)
    (h : determine_file_language nm = some lang) :
    emitFileSection anchor_id (FS.file nm (Except.ok content)) rel_path =
      some ["## " ++ anchor_id, "file: " ++ rel_path,
            "Here is contents of " ++ rel_path ++ " with line numbers:",
            "```" ++ lang,
            String.intercalate "\n" (numberLines 1 (pySplit '\n' (pyRstrip content))),
            "```", "---\n"] ∧
    (numberLines 1 (pySplit '\n' (pyRstrip content))).length =
      (pySplit '\n' (pyRstrip content)).length ∧
    ∀ i, i < (pySplit '\n' (pyRstrip content)).length →
      (numberLines 1 (pySplit '\n' (pyRstrip content))).getD i "" =
        toString (i + 1) ++ ": " ++ (pySplit '\n' (pyRstrip content)).getD i "" := by
  refine ⟨?_, numberLines_length _ 1, ?_⟩
  · unfold emitFileSection
    rw [show (FS.file nm (Except.ok content)).name = nm from rfl, h]
    rfl
  · intro i hi
    rw [numberLines_getD _ 1 i hi, Nat.add_comm 1 i]

/-- C5 witness at a concrete three-line file. -/
theorem claim_C5_witness :
    determine_file_language "a.py" = some "python" ∧
    (emitFileSection "a-py" (FS.file "a.py" (Except.ok "u\nv \nw\n\n")) "a.py" =
      some ["## " ++ "a-py", "file: " ++ "a.py",
            "Here is contents of " ++ "a.py" ++ " with line numbers:",
            "```" ++ "python",
            String.intercalate "\n"
              (numberLines 1 (pySplit '\n' (pyRstrip "u\nv \nw\n\n"))),
            "```", "---\n"] ∧
    (numberLines 1 (pySplit '\n' (pyRstrip "u\nv \nw\n\n"))).length =
      (pySplit '\n' (pyRstrip "u\nv \nw\n\n")).length ∧
    ∀ i, i < (pySplit '\n' (pyRstrip "u\nv \nw\n\n")).length →
      (numberLines 1 (pySplit '\n' (pyRstrip "u\nv \nw\n\n"))).getD i "" =
        toString (i + 1) ++ ": " ++
          (pySplit '\n' (pyRstrip "u\nv \nw\n\n")).getD i "") :=
  ⟨by decide, claim_C5 "a.py" "u\nv \nw\n\n" "python" "a-py" "a.py" (by decide)⟩

/-- C6: every file the tree builder records re-resolves to a language
(starting from an empty record dict, as the program does), so the fatal
`assert` in the content emitter is unreachable and no run ever aborts. -/
theorem claim_C6 :
    (∀ (cfg : Config) (base rel : List String) (node : FS)
       (pre indent : String) (r : List String),
       recsOK (_build_tree cfg base rel node pre indent ⟨r, []⟩).file_contents) ∧
    (∀ (base : List String) (root_name : String) (rc : Option (List FS))
       (output_file : Option String) (cfg : Config),
       (generate_repo_structure_to_markdown base root_name rc output_file
         cfg).isSome = true) := by
  constructor
  · intro cfg base rel node pre indent r
    exact build_tree_recsOK cfg base node rel pre indent ⟨r, []⟩ recsOK_nil
  · intro base root_name rc output_file cfg
    rw [generate_eq_some]
    rfl

/-- C7: a directory whose listing raises `PermissionError` contributes
exactly one warning line at its position and the traversal returns there;
the sibling loop continues with the remaining entries, and the run as a
whole still succeeds. -/
theorem claim_C7 (cfg : Config) (base rel : List String) (nm : String)
    (pre indent : String) (s : TState) (rest : List FS)
    (hni : _should_ignore cfg (base ++ rel ++ [nm]) = false) :
    (_build_tree cfg base rel (FS.dir nm none) pre indent s =
      { s with result := s.result ++
          [pre ++ indent ++ "- ⚠️ [Permission denied]"] }) ∧
    (buildDirs cfg base rel pre indent (FS.dir nm none :: rest) s =
      buildDirs cfg base rel pre indent rest
        { s with result := s.result ++
            [pre ++ indent ++ "- " ++ FOLDER_SYMBOL ++ " " ++ nm,
             pre ++ indent ++ indent ++ "- ⚠️ [Permission denied]"] }) ∧
    (generate_repo_structure_to_markdown base "root"
      (some (FS.dir nm none :: rest)) none cfg).isSome = true := by
  refine ⟨_build_tree_perm cfg base rel nm pre indent s, ?_, ?_⟩
  · rw [buildDirs_cons]
    have hni' : ¬ _should_ignore cfg (base ++ rel ++ [(FS.dir nm none).name]) =
        true := by
      rw [show (FS.dir nm none).name = nm from rfl, hni]
      exact Bool.false_ne_true
    rw [if_neg hni']
    rw [_build_tree_perm]
    rw [show (FS.dir nm none).name = nm from rfl]
    congr 1
    simp
  · rw [generate_eq_some]
    rfl

/-- C7 witness at a concrete input. -/
theorem claim_C7_witness :
    _should_ignore
      { ignore_patterns := none, ignore_hidden := true,
        include_file_contents := true } (["r"] ++ [] ++ ["sub"]) = false ∧
    ((_build_tree
        { ignore_patterns := none, ignore_hidden := true,
          include_file_contents := true } ["r"] [] (FS.dir "sub" none) "" "  "
        ⟨[], []⟩ =
      { (⟨[], []⟩ : TState) with result := (⟨[], []⟩ : TState).result ++
          ["" ++ "  " ++ "- ⚠️ [Permission denied]"] }) ∧
    (buildDirs
        { ignore_patterns := none, ignore_hidden := true,
          include_file_contents := true } ["r"] [] "" "  "
        (FS.dir "sub" none :: []) ⟨[], []⟩ =
      buildDirs
        { ignore_patterns := none, ignore_hidden := true,
          include_file_contents := true } ["r"] [] "" "  " []
        { (⟨[], []⟩ : TState) with result := (⟨[], []⟩ : TState).result ++
            ["" ++ "  " ++ "- " ++ FOLDER_SYMBOL ++ " " ++ "sub",
             "" ++ "  " ++ "  " ++ "- ⚠️ [Permission denied]"] }) ∧
    (generate_repo_structure_to_markdown ["r"] "root"
      (some (FS.dir "sub" none :: [])) none
      { ignore_patterns := none, ignore_hidden := true,
        include_file_contents := true }).isSome = true) :=
  ⟨by decide,
   claim_C7
     { ignore_patterns := none, ignore_hidden := true,
       include_file_contents := true } ["r"] [] "sub" "" "  " ⟨[], []⟩ []
     (by decide)⟩

/-- C8: a recorded file whose read raises produces the three heading lines
followed by an inline error notice instead of a fenced block, the loop
continues with the remaining records, and the run does not abort. -/
theorem claim_C8 (nm e anchor_id rel_path lang : String)
    (h : determine_file_language nm = some lang)
    (k : String) (rest : List (String × FileRec)) :
    (emitFileSection anchor_id (FS.file nm (Except.error e)) rel_path =
      some ["## " ++ anchor_id, "file: " ++ rel_path,
            "Here is contents of " ++ rel_path ++ " with line numbers:",
            "*Error reading file: " ++ e ++ "*\n"]) ∧
    (emitContents ((k, anchor_id, FS.file nm (Except.error e), rel_path) :: rest) =
      (emitContents rest).map
        (fun ms => ["## " ++ anchor_id, "file: " ++ rel_path,
              "Here is contents of " ++ rel_path ++ " with line numbers:",
              "*Error reading file: " ++ e ++ "*\n"] ++ ms)) := by
  have h1 : emitFileSection anchor_id (FS.file nm (Except.error e)) rel_path =
      some ["## " ++ anchor_id, "file: " ++ rel_path,
            "Here is contents of " ++ rel_path ++ " with line numbers:",
            "*Error reading file: " ++ e ++ "*\n"] := by
    unfold emitFileSection
    rw [show (FS.file nm (Except.error e)).name = nm from rfl, h]
    rfl
  refine ⟨h1, ?_⟩
  rw [emitContents, h1]

/-- C8 witness at a concrete input. -/
theorem claim_C8_witness :
    determine_file_language "a.py" = some "python" ∧
    ((emitFileSection "a-py" (FS.file "a.py" (Except.error "gone")) "a.py" =
      some ["## " ++ "a-py", "file: " ++ "a.py",
            "Here is contents of " ++ "a.py" ++ " with line numbers:",
            "*Error reading file: " ++ "gone" ++ "*\n"]) ∧
    (emitContents (("a.py//a.py", "a-py", FS.file "a.py" (Except.error "gone"),
        "a.py") :: []) =
      (emitContents []).map
        (fun ms => ["## " ++ "a-py", "file: " ++ "a.py",
              "Here is contents of " ++ "a.py" ++ " with line numbers:",
              "*Error reading file: " ++ "gone" ++ "*\n"] ++ ms))) :=
  ⟨by decide,
   claim_C8 "a.py" "gone" "a-py" "a.py" "python" (by decide) "a.py//a.py" []⟩

/-- C9: the anchor generator equals, on every input, the slug the spec
describes (lowercase; every character outside `[a-z0-9]` becomes a dash;
dash runs collapse; outer dashes stripped); being a function of its input it
is deterministic and pure. -/
theorem claim_C9 (s : String) : create_anchor_id s = specSlug s := by
  unfold create_anchor_id specSlug
  congr 1
  congr 1
  congr 1
  apply List.map_congr_left
  intro c hc
  rw [pyLower_toList] at hc
  obtain ⟨c₀, _, rfl⟩ := List.mem_map.1 hc
  exact dashNonAlnum_eq_specSlugChar _ (pyToLower_not_upper c₀)

/-- C10 (corrected): supplying `output_file` does not always add the file
write.  The code guards the write with `if output_file:`, a truthiness test,
so the empty path string is skipped: with `output_file = some ""` the run
neither writes nor prints the save notice (`written = none`), though the
markdown string is still returned. -/
theorem claim_C10_counterexample :
    generate_repo_structure_to_markdown ["r"] "r"
        (some [FS.file "a.py" (Except.ok "x")]) (some "")
        { ignore_patterns := none, ignore_hidden := true,
          include_file_contents := true } =
      some { printed := [genMarkdown ["r"] "r"
               (some [FS.file "a.py" (Except.ok "x")])
               { ignore_patterns := none, ignore_hidden := true,
                 include_file_contents := true }],
             written := none,
             returned := some (genMarkdown ["r"] "r"
               (some [FS.file "a.py" (Except.ok "x")])
               { ignore_patterns := none, ignore_hidden := true,
                 include_file_contents := true }) } :=
  generate_eq_some ["r"] "r" (some [FS.file "a.py" (Except.ok "x")]) (some "")
    { ignore_patterns := none, ignore_hidden := true,
      include_file_contents := true }

/-- C10 (amended): the function returns the generated markdown string in
every case, never `None`; a non-empty `output_file` adds the file write and
the save-notice print as extra effects, while an empty `output_file` string
is falsy and adds neither. -/
theorem claim_C10 (base : List String) (root_name : String)
    (rc : Option (List FS)) (cfg : Config) (f : String) :
    generate_repo_structure_to_markdown base root_name rc (some f) cfg =
      some { printed := [genMarkdown base root_name rc cfg] ++
               (if f == "" then []
                else ["Repository structure saved to " ++ f]),
             written := (if f == "" then none
                else some (f, genMarkdown base root_name rc cfg)),
             returned := some (genMarkdown base root_name rc cfg) } ∧
    generate_repo_structure_to_markdown base root_name rc none cfg =
      some { printed := [genMarkdown base root_name rc cfg],
             written := none,
             returned := some (genMarkdown base root_name rc cfg) } :=
  ⟨generate_eq_some base root_name rc (some f) cfg,
   generate_eq_some base root_name rc none cfg⟩

end RepoMd
